import Mathlib

/-!
Shallow embedding of the permission-analysis core of the claude-perms
repository (Go).  Pure functions are translated directly from the source;
file-system reads are modelled by explicit finite maps, Go maps by
insertion-ordered association lists, `time.Time` by natural-number
timestamps (zero value `0`, `time.After` is `>`), Go `int` by `Int`, and
`encoding/json` payloads by small inductive types that record exactly the
observations the Go code makes of them.  ASCII whitespace (space, tab,
newline, carriage return, vertical tab, form feed) stands in for
`unicode.IsSpace`.
-/

/-! ### Association lists standing in for Go maps -/

/-- Association-list lookup (first matching key), modelling a Go map read. -/
def lookupA {α : Type} : List (String × α) → String → Option α
  | [], _ => none
  | (k, v) :: rest, key => if key = k then some v else lookupA rest key

/-- Go read of an int-valued map: missing keys read as `0`. -/
def lookupD (m : List (String × Int)) (key : String) : Int :=
  (lookupA m key).getD 0

/-- Go map write `m[k] = v`: overwrite the first occurrence, else append. -/
def setA {α : Type} : List (String × α) → String → α → List (String × α)
  | [], k, v => [(k, v)]
  | (k', v') :: rest, k, v =>
    if k = k' then (k, v) :: rest else (k', v') :: setA rest k v

/-- Go in-place update `f(m[k])` of an existing entry (no-op if absent). -/
def updA {α : Type} : List (String × α) → String → (α → α) → List (String × α)
  | [], _, _ => []
  | (k', v) :: rest, k, f =>
    if k = k' then (k', f v) :: rest else (k', v) :: updA rest k f

/-- Go `m[k]++` on an int-valued map (missing keys count from 0). -/
def bump : List (String × Int) → String → List (String × Int)
  | [], k => [(k, 1)]
  | (k', v) :: rest, k =>
    if k = k' then (k', v + 1) :: rest else (k', v) :: bump rest k

/-! ### String helpers modelling the Go standard library -/

/-- Whitespace predicate modelling `unicode.IsSpace` on the ASCII range. -/
def goIsSpace (c : Char) : Bool :=
  c = ' ' || c = '\t' || c = '\n' || c = '\r' || c = '\x0b' || c = '\x0c'

/-- Drop leading and trailing whitespace from a character list. -/
def trimCh (cs : List Char) : List Char :=
  ((cs.dropWhile goIsSpace).reverse.dropWhile goIsSpace).reverse

/-- Model of `strings.TrimSpace`. -/
def goTrimSpace (s : String) : String := String.mk (trimCh s.toList)

/-- Accumulator worker for `goFields`: `acc` holds the current word,
reversed; words are flushed when whitespace or the end is reached. -/
def fieldsGo : List Char → List Char → List (List Char)
  | acc, [] => if acc.isEmpty then [] else [acc.reverse]
  | acc, c :: cs =>
    if goIsSpace c then
      if acc.isEmpty then fieldsGo [] cs else acc.reverse :: fieldsGo [] cs
    else fieldsGo (c :: acc) cs

/-- Model of `strings.Fields`: splits around runs of whitespace. -/
def goFields (s : String) : List String :=
  (fieldsGo [] s.toList).map String.mk

/-- Decide whether `pat` occurs as a prefix of some suffix of `s`. -/
def subOccurs (pat : List Char) : List Char → Bool
  | [] => pat.isEmpty
  | c :: cs => pat.isPrefixOf (c :: cs) || subOccurs pat cs

/-- Model of `strings.Contains`. -/
def goContains (s pat : String) : Bool := subOccurs pat.toList s.toList

/-- Model of `strings.HasPrefix`. -/
def goHasPrefix (s pre : String) : Bool := pre.toList.isPrefixOf s.toList

/-- Insert into a list keeping a descending `f`-order (models one step of
`sort.Slice` with a `>` comparator; ordering among ties is unspecified in
the source, which uses an unstable sort). -/
def insertByDesc {α : Type} (f : α → Int) (x : α) : List α → List α
  | [] => [x]
  | y :: ys => if f y ≤ f x then x :: y :: ys else y :: insertByDesc f x ys

/-- Sort descending by `f` (deterministic refinement of `sort.Slice`). -/
def sortByDesc {α : Type} (f : α → Int) : List α → List α
  | [] => []
  | x :: xs => insertByDesc f x (sortByDesc f xs)

/-- Insert into an ascending string list (one step of `sort.Strings`). -/
def insertStrAsc (x : String) : List String → List String
  | [] => [x]
  | y :: ys => if y < x then y :: insertStrAsc x ys else x :: y :: ys

/-- Sort a string list ascending (models `sort.Strings`). -/
def sortStrings : List String → List String
  | [] => []
  | x :: xs => insertStrAsc x (sortStrings xs)

/-! ### Data model (internal/types/types.go) -/

/-- `types.Permission`: a parsed permission string.  The Go field `Type`
is rendered `typ` because `Type` is a Lean keyword. -/
structure Permission where
  typ : String
  Scope : String
  Raw : String
deriving DecidableEq

/-- `types.PermissionStats`: usage statistics for one permission.
`ApprovedAt` is the `ApprovalLevel` ordinal (0 not approved, 1 project,
2 user). -/
structure PermissionStats where
  Permission : Permission
  Count : Int
  Approved : Int
  Denied : Int
  LastSeen : Nat
  Projects : List String
  ApprovedAt : Int
deriving DecidableEq

/-- `types.PermissionGroup`: a permission family with its children. -/
structure PermissionGroup where
  typ : String
  TotalCount : Int
  TotalApproved : Int
  TotalDenied : Int
  LastSeen : Nat
  Children : List PermissionStats
  Expanded : Bool
  ApprovedAt : Int
deriving DecidableEq

/-! ### Permission signature parser (parser sources, `ParsePermission`) -/

/-- Word character of the Go regexp `\w` (ASCII letters, digits, `_`). -/
def isWordChar (c : Char) : Bool := c.isAlphanum || c = '_'

/-- Total-match semantics of the anchored Go regexp
`(\w+)(?:\(([^)]+)\))?` used by `ParsePermission`: returns the
`(family, scope)` submatches, or `none` when the string does not match. -/
def parseSigParts (s : String) : Option (String × String) :=
  let cs := s.toList
  let fam := cs.takeWhile isWordChar
  let rest := cs.dropWhile isWordChar
  if fam.isEmpty then none
  else
    match rest with
    | [] => some (String.mk fam, "")
    | '(' :: rest2 =>
      match rest2.reverse with
      | [] => none
      | last :: revScope =>
        if last = ')' ∧ ¬ revScope.contains ')' ∧ ¬ revScope.isEmpty then
          some (String.mk fam, String.mk revScope.reverse)
        else none
    | _ => none

/-- `ParsePermission` (permissions parser source): trim the input, try the
structural pattern, and fall back to the whole (trimmed) string as the
family when the pattern does not match. -/
def ParsePermission (raw : String) : Permission :=
  match parseSigParts (goTrimSpace raw) with
  | none => { typ := goTrimSpace raw, Scope := "", Raw := goTrimSpace raw }
  | some fs => { typ := fs.1, Scope := fs.2, Raw := goTrimSpace raw }

/-- `PermissionKey`: the unique key of a permission is its raw string. -/
def PermissionKey (p : Permission) : String := p.Raw

/-! ### Scope extraction (`ExtractPermissionScope`, `extractBashCommand`) -/

/-- The fixed compound-command allow list of `extractBashCommand`. -/
def compoundCommands : List String :=
  ["go", "npm", "bun", "yarn", "cargo", "git", "docker"]

/-- `extractBashCommand`: first whitespace token of the command; for the
compound allow list, also the second token unless it starts with `-`. -/
def extractBashCommand (command : String) : String :=
  let command := goTrimSpace command
  if command = "" then ""
  else
    match goFields command with
    | [] => ""
    | firstWord :: rest =>
      if compoundCommands.contains firstWord then
        match rest with
        | secondWord :: _ =>
          if goHasPrefix secondWord "-" then firstWord
          else firstWord ++ " " ++ secondWord
        | [] => firstWord
      else firstWord

/-- Model of a `json.RawMessage` tool-input payload: the Go code observes
only whether the payload is empty and the outcomes of `json.Unmarshal`
into `BashInput` (the `command` field) and `SkillInput` (the `skill`
field); `none` models an unmarshal error for that target type. -/
inductive ToolInput where
  | empty : ToolInput
  | payload (command : Option String) (skill : Option String) : ToolInput
deriving DecidableEq

/-- `ExtractPermissionScope`: derive the canonical permission string for a
tool invocation from the tool name and its input payload. -/
def ExtractPermissionScope (toolName : String) (inputJSON : ToolInput) : String :=
  match inputJSON with
  | .empty => toolName
  | .payload command skill =>
    if toolName = "Bash" then
      match command with
      | some c =>
        if c ≠ "" then
          let cmd := extractBashCommand c
          if cmd ≠ "" then "Bash(" ++ cmd ++ ":*)" else toolName
        else toolName
      | none => toolName
    else if toolName = "Skill" then
      match skill with
      | some sk => if sk ≠ "" then "Skill(" ++ sk ++ ")" else toolName
      | none => toolName
    else toolName

/-! ### Approval-pattern matching (internal/parser/settings.go) -/

/-- `matchesPermission`: exact match, else equal families with the
pattern scope `*` or empty acting as a wildcard, else equal scopes. -/
def matchesPermission (perm pattern : String) : Bool :=
  if perm = pattern then true
  else
    let permParsed := ParsePermission perm
    let patternParsed := ParsePermission pattern
    if permParsed.typ ≠ patternParsed.typ then false
    else if patternParsed.Scope = "*" ∨ patternParsed.Scope = "" then true
    else decide (permParsed.Scope = patternParsed.Scope)

-- Sanity checks on concrete inputs from the source comments.
example : ParsePermission "Bash(curl:*)" =
    { typ := "Bash", Scope := "curl:*", Raw := "Bash(curl:*)" } := by decide
example : extractBashCommand "git -C /path status" = "git" := by decide
example : extractBashCommand "go build ./..." = "go build" := by decide
example : extractBashCommand "curl https://api.example.com" = "curl" := by decide
example : matchesPermission "Bash(curl:*)" "Bash(*)" = true := by decide

/-! ### Session log scanner (`parseSessionLog`, `toolResultContainsRejection`) -/

/-- Model of a `tool_result` content payload (`json.RawMessage`).  The Go
code observes: emptiness, the outcome of `json.Unmarshal` into a string
(`str`, which also covers JSON `null`), the outcome of unmarshalling into
an array of items with `text` fields (`arr`, with the extracted texts),
and otherwise nothing (`other`); the raw serialized bytes are kept
alongside for the final fallback check. -/
inductive RejContent where
  | empty : RejContent
  | str (s : String) (rawBytes : String) : RejContent
  | arr (texts : List String) (rawBytes : String) : RejContent
  | other (rawBytes : String) : RejContent
deriving DecidableEq

/-- `toolResultContainsRejection`: string payloads are searched directly;
array payloads by their `text` fields, falling back to the raw bytes;
anything else by the raw bytes; empty payloads are never rejections. -/
def toolResultContainsRejection : RejContent → Bool
  | .empty => false
  | .str s _ => goContains s "rejected"
  | .arr texts rawBytes =>
    if texts.any (fun t => goContains t "rejected") then true
    else goContains rawBytes "rejected"
  | .other rawBytes => goContains rawBytes "rejected"

/-- `ContentItem`: one item of a JSONL message content array. -/
structure ContentItem where
  type : String
  id : String
  name : String
  input : ToolInput
  toolUseID : String
  isError : Bool
  content : RejContent
deriving DecidableEq

/-- One successfully parsed JSONL line (`JSONLEntry` + its
`AssistantMessage`): `timestamp` is `some t` when the entry carries a
non-empty RFC3339 timestamp that parses, else `none`.  Lines that fail
the cheap substring pre-filter or JSON parsing contribute nothing to the
scanner state, so they are simply absent from the model input. -/
structure JSONLEntry where
  timestamp : Option Nat
  content : List ContentItem
deriving DecidableEq

/-- Go update of `lastSeen[key]`: insert if absent, else keep the max
(`entryTime.After(lastSeen[key])`). -/
def updateLastSeen : List (String × Nat) → String → Nat → List (String × Nat)
  | [], k, t => [(k, t)]
  | (k', t') :: rest, k, t =>
    if k = k' then (k', if t > t' then t else t') :: rest
    else (k', t') :: updateLastSeen rest k t

/-- The local maps of one `parseSessionLog` run. -/
structure ScanState where
  counts : List (String × Int)
  approved : List (String × Int)
  denied : List (String × Int)
  lastSeen : List (String × Nat)
  toolUseIDToKey : List (String × String)
deriving DecidableEq

/-- The body of the `parseSessionLog` content loop for one item:
`tool_use` items are counted and recorded for correlation; `tool_result`
items are classified against the recorded mapping.  An error result
without rejection text is a command failure and counts neither way. -/
def processItem (entryTime : Nat) (st : ScanState) (item : ContentItem) : ScanState :=
  if item.type = "tool_use" ∧ item.name ≠ "" then
    let permString := ExtractPermissionScope item.name item.input
    let perm := ParsePermission permString
    let key := PermissionKey perm
    { st with
      counts := bump st.counts key,
      toolUseIDToKey :=
        if item.id ≠ "" then setA st.toolUseIDToKey item.id key
        else st.toolUseIDToKey,
      lastSeen := updateLastSeen st.lastSeen key entryTime }
  else if item.type = "tool_result" ∧ item.toolUseID ≠ "" then
    match lookupA st.toolUseIDToKey item.toolUseID with
    | none => st
    | some key =>
      if item.isError && toolResultContainsRejection item.content then
        { st with denied := bump st.denied key }
      else if !item.isError then
        { st with approved := bump st.approved key }
      else st
  else st

/-- The scanning loop of `parseSessionLog` over all parsed lines. -/
def scanLog (sessionTime : Nat) (entries : List JSONLEntry) : ScanState :=
  entries.foldl
    (fun st e => e.content.foldl (processItem (e.timestamp.getD sessionTime)) st)
    ⟨[], [], [], [], []⟩

/-- `parseSessionLog`: scan a session log and convert the per-key maps to
a `PermissionStats` list (one entry per counted key). -/
def parseSessionLog (sessionTime : Nat) (entries : List JSONLEntry) : List PermissionStats :=
  let st := scanLog sessionTime entries
  st.counts.map fun kc =>
    { Permission := ParsePermission kc.1
      Count := kc.2
      Approved := lookupD st.approved kc.1
      Denied := lookupD st.denied kc.1
      LastSeen := ((lookupA st.lastSeen kc.1).getD 0)
      Projects := []
      ApprovedAt := 0 }

/-! ### Hierarchical grouping (`GroupPermissions`) -/

/-- The body of the `GroupPermissions` loop for one stats entry. -/
def groupStep (m : List (String × PermissionGroup)) (stat : PermissionStats) :
    List (String × PermissionGroup) :=
  let baseType := stat.Permission.typ
  match lookupA m baseType with
  | some _ =>
    updA m baseType fun group =>
      { group with
        TotalCount := group.TotalCount + stat.Count
        TotalApproved := group.TotalApproved + stat.Approved
        TotalDenied := group.TotalDenied + stat.Denied
        Children := group.Children ++ [stat]
        LastSeen := if stat.LastSeen > group.LastSeen then stat.LastSeen else group.LastSeen
        ApprovedAt := if stat.ApprovedAt > group.ApprovedAt then stat.ApprovedAt else group.ApprovedAt }
  | none =>
    m ++ [(baseType,
      { typ := baseType
        TotalCount := stat.Count
        TotalApproved := stat.Approved
        TotalDenied := stat.Denied
        LastSeen := stat.LastSeen
        Children := [stat]
        Expanded := false
        ApprovedAt := stat.ApprovedAt })]

/-- `GroupPermissions`: group flat stats by permission family, sort each
group's children by count and the groups by total count (descending). -/
def GroupPermissions (stats : List PermissionStats) : List PermissionGroup :=
  let m := stats.foldl groupStep []
  sortByDesc (fun g => g.TotalCount)
    (m.map fun kg => { kg.2 with Children := sortByDesc (fun c => c.Count) kg.2.Children })

/-! ### Fingerprint cache (cache source: `fileHash`, `getCachedStats`) -/

/-- File metadata visible to `os.Stat`: modification time and size. -/
structure FileInfo where
  modTimeNanos : Int
  size : Int
deriving DecidableEq

/-- `CacheEntry`: a stored fingerprint plus the cached stats. -/
structure CacheEntry where
  FileHash : Int × Int
  Stats : List PermissionStats
deriving DecidableEq

/-- `fileHash`: the fingerprint derived from a file's mtime and size.
The Go code builds the string `"<mtimeNanos>:<size>"` (injective in the
pair) and takes a truncated SHA-256 of it; the hash step is modelled as
injective, so the fingerprint is the `(mtime, size)` pair itself.
`none` models an `os.Stat` error (e.g. a missing file). -/
def fileHash (fs : String → Option FileInfo) (path : String) : Option (Int × Int) :=
  match fs path with
  | none => none
  | some info => some (info.modTimeNanos, info.size)

/-- `getCachedStats`: a hit only when the stored fingerprint equals the
fingerprint freshly derived from the file's current metadata. -/
def getCachedStats (fs : String → Option FileInfo)
    (sessions : List (String × CacheEntry)) (path : String) :
    Option (List PermissionStats) :=
  match fileHash fs path with
  | none => none
  | some hash =>
    match lookupA sessions path with
    | none => none
    | some entry => if entry.FileHash = hash then some entry.Stats else none

/-- `setCachedStats`: store the current fingerprint with the stats. -/
def setCachedStats (fs : String → Option FileInfo)
    (sessions : List (String × CacheEntry)) (path : String)
    (stats : List PermissionStats) : List (String × CacheEntry) :=
  match fileHash fs path with
  | none => sessions
  | some hash => setA sessions path { FileHash := hash, Stats := stats }

/-! ### Directory walker / aggregator (`LoadAllPermissionStatsFromWithProgress`) -/

/-- A directory entry as returned by `os.ReadDir`. -/
structure DirEntry where
  name : String
  isDir : Bool
deriving DecidableEq

/-- Outcome of `os.ReadDir`: success, `os.IsNotExist`, or another error. -/
inductive ReadDirResult where
  | ok (entries : List DirEntry) : ReadDirResult
  | notExist : ReadDirResult
  | otherError (e : String) : ReadDirResult
deriving DecidableEq

/-- `SessionEntry` of `sessions-index.json`: `modified` is `some t` when
the `Modified` field is non-empty, parses, and is non-zero, else `none`
(forcing the `FileMtime` fallback). -/
structure SessionEntry where
  sessionID : String
  fileMtime : Nat
  modified : Option Nat
deriving DecidableEq

/-- The file-system surface the walker touches: one directory read, the
result of `loadSessionsIndex` per index path (`none` covers both a
missing and an unparseable index), and the parsed line stream of each
session log (`none` models `parseSessionLog` failing to open the file). -/
structure FS where
  readDir : String → ReadDirResult
  index : String → Option (List SessionEntry)
  log : String → Option (List JSONLEntry)

/-- Model of `filepath.Join` for the paths the walker builds. -/
def joinPath (a b : String) : String := a ++ "/" ++ b

/-- `decodeProjectPath`: decode an encoded project directory name. -/
def decodeProjectPath (encoded : String) : String :=
  if goHasPrefix encoded "-" then
    "/" ++ String.mk ((encoded.toList.drop 1).map fun c => if c = '-' then '/' else c)
  else String.mk (encoded.toList.map fun c => if c = '-' then '/' else c)

/-- The aggregation state of the walker: `statsMap` and `projectsMap`
(the latter's value lists model `map[string]bool` sets). -/
structure AggState where
  statsMap : List (String × PermissionStats)
  projectsMap : List (String × List String)
deriving DecidableEq

/-- Set insertion `projectsMap[key][projectName] = true`. -/
def addProject (l : List String) (proj : String) : List String :=
  if proj ∈ l then l else l ++ [proj]

/-- The walker's per-permission merge: initialize an absent key with zero
stats, then add the per-file counts, keep the max last-seen, and record
the project. -/
def aggStep (projectName : String) (st : AggState) (p : PermissionStats) : AggState :=
  let key := PermissionKey p.Permission
  let st :=
    if (lookupA st.statsMap key).isSome then st
    else
      { statsMap := st.statsMap ++
          [(key, { Permission := p.Permission, Count := 0, Approved := 0, Denied := 0,
                   LastSeen := 0, Projects := [], ApprovedAt := 0 })],
        projectsMap := st.projectsMap ++ [(key, [])] }
  { statsMap :=
      updA st.statsMap key fun s =>
        { s with
          Count := s.Count + p.Count
          Approved := s.Approved + p.Approved
          Denied := s.Denied + p.Denied
          LastSeen := if p.LastSeen > s.LastSeen then p.LastSeen else s.LastSeen },
    projectsMap := updA st.projectsMap key fun l => addProject l projectName }

/-- Per-session step of the walker: derive the fallback timestamp, parse
the session log, and merge its stats; a log that cannot be opened is
skipped. -/
def sessionStep (fs : FS) (projectPath projectName : String)
    (st : AggState) (session : SessionEntry) : AggState :=
  let sessionPath := joinPath projectPath (session.sessionID ++ ".jsonl")
  let sessionTime := session.modified.getD (session.fileMtime / 1000)
  match fs.log sessionPath with
  | none => st
  | some entries => (parseSessionLog sessionTime entries).foldl (aggStep projectName) st

/-- Per-project step of the walker: non-directories are skipped, and a
project with a missing or unparseable session index is skipped. -/
def projectStep (fs : FS) (projectsDir : String) (st : AggState) (entry : DirEntry) : AggState :=
  if entry.isDir then
    let projectPath := joinPath projectsDir entry.name
    let projectName := decodeProjectPath entry.name
    match fs.index (joinPath projectPath "sessions-index.json") with
    | none => st
    | some sessions => sessions.foldl (sessionStep fs projectPath projectName) st
  else st

/-- Convert the aggregation maps to the final sorted stats list (project
lists sorted ascending, stats sorted descending by count). -/
def finalizeAgg (st : AggState) : List PermissionStats :=
  sortByDesc (fun s => s.Count)
    (st.statsMap.map fun ks =>
      { ks.2 with Projects := sortStrings ((lookupA st.projectsMap ks.1).getD []) })

/-- `LoadAllPermissionStatsFromWithProgress` (with a nil progress sink,
which the source treats as a no-op): a missing projects directory yields
empty results and no error, any other directory-read error is propagated,
and otherwise the per-project walk is aggregated. -/
def LoadAllPermissionStatsFrom (fs : FS) (projectsDir : String) :
    Except String (List PermissionStats) :=
  match fs.readDir projectsDir with
  | .notExist => .ok []
  | .otherError e => .error e
  | .ok entries =>
    .ok (finalizeAgg (entries.foldl (projectStep fs projectsDir) ⟨[], []⟩))

-- Scanner sanity check: the spec's concrete approved scenario.
example :
    parseSessionLog 7
      [{ timestamp := some 9,
         content :=
           [{ type := "tool_use", id := "toolu_01", name := "Bash",
              input := .payload (some "curl -s https://example.com") none,
              toolUseID := "", isError := false, content := .empty },
            { type := "tool_result", id := "", name := "",
              input := .empty, toolUseID := "toolu_01", isError := false,
              content := .str "ok" "ok" }] }] =
      [{ Permission := { typ := "Bash", Scope := "curl:*", Raw := "Bash(curl:*)" },
         Count := 1, Approved := 1, Denied := 0, LastSeen := 9,
         Projects := [], ApprovedAt := 0 }] := by decide

/-! ### Shared lemmas -/

/-- Both branches of `ParsePermission` store the trimmed input in `Raw`. -/
theorem parsePermission_raw (s : String) : (ParsePermission s).Raw = goTrimSpace s := by
  unfold ParsePermission
  cases parseSigParts (goTrimSpace s) <;> rfl

/-- `ParsePermission` depends on its input only through trimming. -/
theorem parsePermission_congr {s₁ s₂ : String} (h : goTrimSpace s₁ = goTrimSpace s₂) :
    ParsePermission s₁ = ParsePermission s₂ := by
  unfold ParsePermission
  rw [h]

/-- `setA` stores the given value at the given key. -/
theorem lookupA_setA_self {α : Type} (m : List (String × α)) (k : String) (v : α) :
    lookupA (setA m k v) k = some v := by
  induction m with
  | nil => simp [setA, lookupA]
  | cons hd tl ih =>
    by_cases h : k = hd.1
    · simp [setA, h, lookupA]
    · simp [setA, h, lookupA, ih]

/-! ### C4: raw round-trip of `ParsePermission` -/

/-- C4 counterexample: parsing trims, so an input with leading whitespace
is not preserved verbatim in `Raw`. -/
theorem C4_counterexample : ¬ ((ParsePermission " Read").Raw = " Read") := by decide

/-- C4 (amended): for every signature string `s`, `ParsePermission(s).Raw`
equals the whitespace-trimmed form of `s` — in both the pattern-matching
and the identity-fallback case — and hence equals `s` itself exactly when
`s` carries no surrounding whitespace. -/
theorem C4_raw_roundtrip (s : String) :
    (ParsePermission s).Raw = goTrimSpace s ∧
    (goTrimSpace s = s → (ParsePermission s).Raw = s) :=
  ⟨parsePermission_raw s, fun h => (parsePermission_raw s).trans h⟩

/-- C4 witness: a trimmed signature string is preserved verbatim. -/
theorem C4_witness : (ParsePermission "Bash(curl:*)").Raw = "Bash(curl:*)" :=
  (C4_raw_roundtrip "Bash(curl:*)").2 (by decide)

/-! ### C9: `ParsePermission` strips surrounding whitespace -/

/-- C9: `ParsePermission` first trims its input, so the stored `Raw` is
the trimmed form of the input; inputs differing only in surrounding
whitespace parse identically; and an input with surrounding whitespace is
never stored verbatim. -/
theorem C9_trimming :
    (∀ s, (ParsePermission s).Raw = goTrimSpace s) ∧
    (∀ s₁ s₂, goTrimSpace s₁ = goTrimSpace s₂ → ParsePermission s₁ = ParsePermission s₂) ∧
    (∀ s, goTrimSpace s ≠ s → (ParsePermission s).Raw ≠ s) :=
  ⟨parsePermission_raw,
   fun _ _ h => parsePermission_congr h,
   fun s hne => by rw [parsePermission_raw s]; exact hne⟩

/-- C9 witness: two whitespace variants of `Read` parse identically, and
the padded variant is not stored verbatim. -/
theorem C9_witness :
    ParsePermission " Read" = ParsePermission "Read " ∧
    (ParsePermission " Read").Raw ≠ " Read" :=
  ⟨C9_trimming.2.1 " Read" "Read " (by decide), C9_trimming.2.2 " Read" (by decide)⟩

/-! ### C6: characterization of `matchesPermission` -/

/-- C6: `matchesPermission` returns true iff the strings are equal, or
the families agree and the pattern scope is `*` or empty, or the families
agree and the scopes are equal. -/
theorem C6_matches_iff (sig pat : String) :
    matchesPermission sig pat = true ↔
      sig = pat ∨
      ((ParsePermission sig).typ = (ParsePermission pat).typ ∧
        ((ParsePermission pat).Scope = "*" ∨ (ParsePermission pat).Scope = "")) ∨
      ((ParsePermission sig).typ = (ParsePermission pat).typ ∧
        (ParsePermission sig).Scope = (ParsePermission pat).Scope) := by
  unfold matchesPermission
  split_ifs
  all_goals simp_all
  all_goals tauto

/-! ### C10: rejection detection falls back to the raw bytes -/

/-- C10: an empty result payload is never a rejection; for a non-empty,
non-string payload, when no parsed text item contains `rejected` the
classification is exactly the raw-byte substring check — both when the
payload parses as a text-item array and when it parses as neither
serialization. -/
theorem C10_rejection_fallback :
    toolResultContainsRejection .empty = false ∧
    (∀ texts rawBytes, (∀ t ∈ texts, goContains t "rejected" = false) →
      toolResultContainsRejection (.arr texts rawBytes) = goContains rawBytes "rejected") ∧
    (∀ rawBytes, toolResultContainsRejection (.other rawBytes) = goContains rawBytes "rejected") := by
  refine ⟨rfl, ?_, fun _ => rfl⟩
  intro texts rawBytes h
  have hany : texts.any (fun t => goContains t "rejected") = false := by
    simp only [List.any_eq_false]
    intro t ht
    simp [h t ht]
  simp [toolResultContainsRejection, hany]

/-- C10 witness: a payload whose only `rejected` occurrence sits in the
raw bytes (not in any text item) is classified as a rejection. -/
theorem C10_witness :
    toolResultContainsRejection (.arr ["ok"] "the tool was rejected here") =
      goContains "the tool was rejected here" "rejected" :=
  C10_rejection_fallback.2.1 ["ok"] "the tool was rejected here" (by decide)

/-! ### C1: classification of correlated results -/

/-- C1: for a `tool_result` item with a non-empty referenced invocation
id, when the id has a recorded mapping: a non-error result increments the
approved count, an error result with rejection text increments the denied
count, and an error result without rejection text changes nothing; a
result whose id has no recorded mapping is ignored entirely. -/
theorem C1_result_classification (entryTime : Nat) (st : ScanState) (item : ContentItem)
    (htype : item.type = "tool_result") (hid : item.toolUseID ≠ "") :
    (∀ key, lookupA st.toolUseIDToKey item.toolUseID = some key →
      ((item.isError = false →
        processItem entryTime st item = { st with approved := bump st.approved key }) ∧
       (item.isError = true → toolResultContainsRejection item.content = true →
        processItem entryTime st item = { st with denied := bump st.denied key }) ∧
       (item.isError = true → toolResultContainsRejection item.content = false →
        processItem entryTime st item = st))) ∧
    (lookupA st.toolUseIDToKey item.toolUseID = none →
      processItem entryTime st item = st) := by
  constructor
  · intro key hkey
    refine ⟨?_, ?_, ?_⟩
    · intro h1
      simp [processItem, htype, hid, hkey, h1]
    · intro h1 h2
      simp [processItem, htype, hid, hkey, h1, h2]
    · intro h1 h2
      simp [processItem, htype, hid, hkey, h1, h2]
  · intro hnone
    simp [processItem, htype, hid, hnone]

/-- A scanner state with one recorded invocation, for the C1 witness. -/
def demoScanState : ScanState :=
  { counts := [("Read", 1)], approved := [], denied := [],
    lastSeen := [("Read", 5)], toolUseIDToKey := [("A", "Read")] }

/-- A successful result item answering invocation `A`. -/
def demoResultItem : ContentItem :=
  { type := "tool_result", id := "", name := "", input := .empty,
    toolUseID := "A", isError := false, content := .str "ok" "ok" }

/-- C1 witness: a correlated non-error result bumps the approved count. -/
theorem C1_witness :
    processItem 0 demoScanState demoResultItem =
      { demoScanState with approved := bump demoScanState.approved "Read" } :=
  ((C1_result_classification 0 demoScanState demoResultItem (by decide) (by decide)).1
    "Read" (by decide)).1 (by decide)

/-! ### C7: cache hits require an unchanged fingerprint -/

/-- C7: after an entry is stored for a file whose metadata was
`(m0, s0)`, a lookup while the file has metadata `(m1, s1)` misses
whenever either component changed, and hits (returning the stored stats)
exactly when the stored fingerprint equals the current one. -/
theorem C7_cache_fingerprint
    (fs0 fs1 : String → Option FileInfo) (sessions : List (String × CacheEntry))
    (path : String) (st : List PermissionStats) (m0 s0 m1 s1 : Int)
    (h0 : fs0 path = some { modTimeNanos := m0, size := s0 })
    (h1 : fs1 path = some { modTimeNanos := m1, size := s1 }) :
    ((m1, s1) ≠ (m0, s0) →
      getCachedStats fs1 (setCachedStats fs0 sessions path st) path = none) ∧
    (getCachedStats fs1 (setCachedStats fs0 sessions path st) path = some st ↔
      (m1, s1) = (m0, s0)) := by
  have hset : setCachedStats fs0 sessions path st =
      setA sessions path { FileHash := (m0, s0), Stats := st } := by
    simp [setCachedStats, fileHash, h0]
  have hget : getCachedStats fs1 (setA sessions path { FileHash := (m0, s0), Stats := st }) path =
      (if (m0, s0) = (m1, s1) then some st else none) := by
    simp [getCachedStats, fileHash, h1, lookupA_setA_self]
  rw [hset, hget]
  constructor
  · intro hne
    rw [if_neg (fun h => hne h.symm)]
  · constructor
    · intro h
      by_contra hne
      rw [if_neg (fun h' => hne h'.symm)] at h
      exact Option.noConfusion h
    · intro h
      rw [if_pos h.symm]

/-- File metadata before the mutation, for the C7 witness. -/
def demoFS0 : String → Option FileInfo := fun _ => some { modTimeNanos := 10, size := 3 }

/-- File metadata after a size-preserving touch, for the C7 witness. -/
def demoFS1 : String → Option FileInfo := fun _ => some { modTimeNanos := 11, size := 3 }

/-- C7 witness: changing only the mtime forces a cache miss. -/
theorem C7_witness :
    getCachedStats demoFS1 (setCachedStats demoFS0 [] "p.jsonl" []) "p.jsonl" = none :=
  (C7_cache_fingerprint demoFS0 demoFS1 [] "p.jsonl" [] 10 3 11 3 rfl rfl).1 (by decide)

/-! ### C8: error policy of the directory walker -/

/-- C8: a missing projects directory yields empty results and no error;
any other error reading the projects directory is propagated; a project
whose session index is missing or unparseable is skipped (the aggregation
state is unchanged); and a session file that cannot be opened is skipped
likewise. -/
theorem C8_error_policy (fs : FS) (projectsDir : String) :
    (fs.readDir projectsDir = .notExist →
      LoadAllPermissionStatsFrom fs projectsDir = .ok []) ∧
    (∀ e, fs.readDir projectsDir = .otherError e →
      LoadAllPermissionStatsFrom fs projectsDir = .error e) ∧
    (∀ st entry, entry.isDir = true →
      fs.index (joinPath (joinPath projectsDir entry.name) "sessions-index.json") = none →
      projectStep fs projectsDir st entry = st) ∧
    (∀ projectPath projectName st session,
      fs.log (joinPath projectPath (session.sessionID ++ ".jsonl")) = none →
      sessionStep fs projectPath projectName st session = st) := by
  refine ⟨?_, ?_, ?_, ?_⟩
  · intro h
    simp [LoadAllPermissionStatsFrom, h]
  · intro e h
    simp [LoadAllPermissionStatsFrom, h]
  · intro st entry hdir hidx
    simp [projectStep, hdir, hidx]
  · intro projectPath projectName st session hlog
    simp [sessionStep, hlog]

/-- A file system whose projects directory does not exist. -/
def demoFS : FS :=
  { readDir := fun _ => .notExist, index := fun _ => none, log := fun _ => none }

/-- C8 witness: a missing projects directory yields `ok []`. -/
theorem C8_witness : LoadAllPermissionStatsFrom demoFS "projects" = .ok [] :=
  (C8_error_policy demoFS "projects").1 rfl

/-! ### Lemmas about `goFields` and trimming (for C5) -/

/-- Splitting an all-whitespace tail only flushes the accumulator. -/
theorem fieldsGo_all_space (t : List Char) (acc : List Char)
    (h : ∀ c ∈ t, goIsSpace c = true) :
    fieldsGo acc t = if acc.isEmpty then [] else [acc.reverse] := by
  induction t generalizing acc with
  | nil => rfl
  | cons c cs ih =>
    have hc : goIsSpace c = true := h c (List.mem_cons_self c cs)
    have ht : ∀ d ∈ cs, goIsSpace d = true := fun d hd => h d (List.mem_cons_of_mem c hd)
    by_cases hacc : acc.isEmpty = true
    · simp [fieldsGo, hc, hacc, ih [] ht]
    · simp [fieldsGo, hc, hacc, ih [] ht]

/-- Appending trailing whitespace does not change the fields. -/
theorem fieldsGo_append_space (t : List Char) (ht : ∀ c ∈ t, goIsSpace c = true)
    (es : List Char) : ∀ acc, fieldsGo acc (es ++ t) = fieldsGo acc es := by
  induction es with
  | nil =>
    intro acc
    rw [List.nil_append, fieldsGo_all_space t acc ht]
    rfl
  | cons e es ih =>
    intro acc
    by_cases he : goIsSpace e = true
    · simp [fieldsGo, he, ih]
    · simp [fieldsGo, he, ih]

/-- Dropping leading whitespace does not change the fields. -/
theorem fieldsGo_dropWhile (cs : List Char) :
    fieldsGo [] (cs.dropWhile goIsSpace) = fieldsGo [] cs := by
  induction cs with
  | nil => rfl
  | cons c cs ih =>
    by_cases hc : goIsSpace c = true
    · simp [List.dropWhile_cons, hc, fieldsGo, ih]
    · simp [List.dropWhile_cons, hc]

/-- Trimming does not change the fields. -/
theorem fieldsGo_trimCh (cs : List Char) :
    fieldsGo [] (trimCh cs) = fieldsGo [] cs := by
  have hsplit : cs.dropWhile goIsSpace =
      ((cs.dropWhile goIsSpace).reverse.dropWhile goIsSpace).reverse ++
        ((cs.dropWhile goIsSpace).reverse.takeWhile goIsSpace).reverse := by
    conv_lhs => rw [← List.reverse_reverse (cs.dropWhile goIsSpace),
      ← List.takeWhile_append_dropWhile (p := goIsSpace)
        (l := (cs.dropWhile goIsSpace).reverse)]
    rw [List.reverse_append]
  have hsp : ∀ c ∈ ((cs.dropWhile goIsSpace).reverse.takeWhile goIsSpace).reverse,
      goIsSpace c = true := by
    intro c hc
    rw [List.mem_reverse] at hc
    exact List.mem_takeWhile_imp hc
  calc fieldsGo [] (trimCh cs)
      = fieldsGo [] (((cs.dropWhile goIsSpace).reverse.dropWhile goIsSpace).reverse) := rfl
    _ = fieldsGo [] (((cs.dropWhile goIsSpace).reverse.dropWhile goIsSpace).reverse ++
          ((cs.dropWhile goIsSpace).reverse.takeWhile goIsSpace).reverse) :=
        (fieldsGo_append_space _ hsp _ []).symm
    _ = fieldsGo [] (cs.dropWhile goIsSpace) := by rw [← hsplit]
    _ = fieldsGo [] cs := fieldsGo_dropWhile cs

/-- `strings.Fields` ignores surrounding whitespace. -/
theorem goFields_trimSpace (s : String) : goFields (goTrimSpace s) = goFields s := by
  unfold goFields goTrimSpace
  rw [show (String.mk (trimCh s.toList)).toList = trimCh s.toList from rfl, fieldsGo_trimCh]

/-- The empty string has no fields. -/
theorem goFields_empty : goFields "" = [] := rfl

/-- Every word produced by `fieldsGo` is non-empty. -/
theorem fieldsGo_ne_nil (cs : List Char) : ∀ acc w, w ∈ fieldsGo acc cs → w ≠ [] := by
  induction cs with
  | nil =>
    intro acc w hw
    simp only [fieldsGo] at hw
    by_cases hacc : acc.isEmpty = true
    · simp [hacc] at hw
    · rw [if_neg hacc] at hw
      rcases List.mem_singleton.mp hw with rfl
      simp only [ne_eq, List.reverse_eq_nil_iff]
      intro hc
      rw [hc] at hacc
      exact hacc rfl
  | cons c cs ih =>
    intro acc w hw
    simp only [fieldsGo] at hw
    by_cases hc : goIsSpace c = true
    · rw [if_pos hc] at hw
      by_cases hacc : acc.isEmpty = true
      · rw [if_pos hacc] at hw
        exact ih [] w hw
      · rw [if_neg hacc] at hw
        rcases List.mem_cons.mp hw with rfl | h
        · simp only [ne_eq, List.reverse_eq_nil_iff]
          intro hce
          rw [hce] at hacc
          exact hacc rfl
        · exact ih [] w h
    · rw [if_neg hc] at hw
      exact ih (c :: acc) w hw

/-- A string built from a non-empty character list is non-empty. -/
theorem String_mk_ne_empty (l : List Char) (h : l ≠ []) : String.mk l ≠ "" := by
  intro hc
  exact h (congrArg String.data hc)

/-- Every word produced by `goFields` is non-empty. -/
theorem goFields_mem_ne_empty (s w : String) (hw : w ∈ goFields s) : w ≠ "" := by
  unfold goFields at hw
  rcases List.mem_map.mp hw with ⟨l, hl, rfl⟩
  exact String_mk_ne_empty l (fieldsGo_ne_nil _ _ _ hl)

/-- Appending to a non-empty string stays non-empty. -/
theorem String_append_ne_empty (a b : String) (h : a ≠ "") : a ++ b ≠ "" := by
  rcases a with ⟨la⟩
  rcases b with ⟨lb⟩
  intro hc
  have hd : la ++ lb = ([] : List Char) := congrArg String.data hc
  rcases List.append_eq_nil.mp hd with ⟨h1, _⟩
  subst h1
  exact h rfl

/-- The scope the spec describes for a shell command with fields
`first :: rest`: the first token, extended by the second for allow-listed
compound commands unless the second token starts with `-`. -/
def compoundScope (first : String) (rest : List String) : String :=
  match rest with
  | [] => first
  | second :: _ =>
    if compoundCommands.contains first && !(goHasPrefix second "-") then
      first ++ " " ++ second
    else first

/-- Characterization of `extractBashCommand` by the fields of the raw
command. -/
theorem extractBashCommand_eq (cmd first : String) (rest : List String)
    (h : goFields cmd = first :: rest) :
    extractBashCommand cmd = compoundScope first rest := by
  have htrim : goFields (goTrimSpace cmd) = first :: rest := by
    rw [goFields_trimSpace]; exact h
  have hne : goTrimSpace cmd ≠ "" := by
    intro hc
    rw [hc, goFields_empty] at htrim
    exact List.noConfusion htrim
  simp only [extractBashCommand]
  rw [if_neg hne, htrim]
  cases rest with
  | nil =>
    by_cases hcc : first ∈ compoundCommands
    · simp [compoundScope, hcc]
    · simp [compoundScope, hcc]
  | cons second rest2 =>
    by_cases hcc : first ∈ compoundCommands
    · by_cases hp : goHasPrefix second "-" = true
      · simp [compoundScope, hcc, hp]
      · simp [compoundScope, hcc, hp]
    · simp [compoundScope, hcc]

/-- The extracted bash command of a command with at least one token is
never empty. -/
theorem extractBashCommand_ne_empty (cmd first : String) (rest : List String)
    (h : goFields cmd = first :: rest) : extractBashCommand cmd ≠ "" := by
  have hfw : first ≠ "" :=
    goFields_mem_ne_empty cmd first (h ▸ List.mem_cons_self first rest)
  rw [extractBashCommand_eq cmd first rest h]
  cases rest with
  | nil => exact hfw
  | cons second rest2 =>
    simp only [compoundScope]
    by_cases hcc : (compoundCommands.contains first && !(goHasPrefix second "-")) = true
    · rw [if_pos hcc]
      exact String_append_ne_empty _ _ (String_append_ne_empty _ _ hfw)
    · rw [if_neg hcc]
      exact hfw

/-! ### C5: shell-command scope derivation -/

/-- C5: for a Bash invocation whose command text contains at least one
whitespace-delimited token, the derived signature is
`Bash(<scope>:*)` where the scope is the first token, extended by the
second token exactly when the first is in the fixed compound allow list
and the second does not begin with `-`; in particular
`git -C /repo status` yields `Bash(git:*)` and `git status` yields
`Bash(git status:*)`. -/
theorem C5_bash_signature (cmd : String) (sk : Option String) (first : String)
    (rest : List String) (h : goFields cmd = first :: rest) :
    ExtractPermissionScope "Bash" (.payload (some cmd) sk) =
      "Bash(" ++ extractBashCommand cmd ++ ":*)" ∧
    extractBashCommand cmd = compoundScope first rest ∧
    ExtractPermissionScope "Bash" (.payload (some "git -C /repo status") none) =
      "Bash(git:*)" ∧
    ExtractPermissionScope "Bash" (.payload (some "git status") none) =
      "Bash(git status:*)" := by
  have hcmd : cmd ≠ "" := by
    intro hc
    rw [hc, goFields_empty] at h
    exact List.noConfusion h
  have hbc := extractBashCommand_eq cmd first rest h
  have hbcne := extractBashCommand_ne_empty cmd first rest h
  refine ⟨?_, hbc, by decide, by decide⟩
  simp [ExtractPermissionScope, hcmd, hbcne]

/-- C5 witness: the compound-command rule applied to `git status`. -/
theorem C5_witness :
    ExtractPermissionScope "Bash" (.payload (some "git status") none) =
      "Bash(" ++ extractBashCommand "git status" ++ ":*)" :=
  (C5_bash_signature "git status" none "git" ["status"] (by decide)).1

/-! ### Sorting lemmas (for C3 and C2) -/

/-- `insertByDesc` permutes the element onto the list. -/
theorem perm_insertByDesc {α : Type} (f : α → Int) (x : α) (l : List α) :
    List.Perm (insertByDesc f x l) (x :: l) := by
  induction l with
  | nil => exact List.Perm.refl _
  | cons y ys ih =>
    by_cases h : f y ≤ f x
    · simp [insertByDesc, h]
    · simp only [insertByDesc, if_neg h]
      exact (ih.cons y).trans (List.Perm.swap x y ys)

/-- `sortByDesc` permutes its input. -/
theorem perm_sortByDesc {α : Type} (f : α → Int) (l : List α) :
    List.Perm (sortByDesc f l) l := by
  induction l with
  | nil => exact List.Perm.refl _
  | cons x xs ih =>
    exact (perm_insertByDesc f x (sortByDesc f xs)).trans (ih.cons x)

/-- Membership is invariant under `sortByDesc`. -/
theorem mem_sortByDesc {α : Type} {f : α → Int} {a : α} {l : List α} :
    a ∈ sortByDesc f l ↔ a ∈ l :=
  (perm_sortByDesc f l).mem_iff

/-- Integer-valued sum of a projection over a list. -/
def sumBy {α : Type} (f : α → Int) (l : List α) : Int := (l.map f).sum

/-- `sumBy` is invariant under `sortByDesc`. -/
theorem sumBy_sortByDesc {α : Type} (g f : α → Int) (l : List α) :
    sumBy g (sortByDesc f l) = sumBy g l :=
  ((perm_sortByDesc f l).map g).sum_eq

/-! ### C3: group totals are the sums over children -/

/-- The per-group sum invariant of `GroupPermissions`. -/
def groupInv (g : PermissionGroup) : Prop :=
  g.TotalCount = sumBy (fun c => c.Count) g.Children ∧
  g.TotalApproved = sumBy (fun c => c.Approved) g.Children ∧
  g.TotalDenied = sumBy (fun c => c.Denied) g.Children

/-- Elements of `updA m k f` come from `m`, either untouched or with `f`
applied to a value stored under `k`. -/
theorem mem_updA {α : Type} (m : List (String × α)) (k : String) (f : α → α) :
    ∀ p ∈ updA m k f, p ∈ m ∨ ∃ v, (k, v) ∈ m ∧ p = (k, f v) := by
  induction m with
  | nil => intro p hp; exact absurd hp (by simp [updA])
  | cons hd tl ih =>
    intro p hp
    by_cases hk : k = hd.1
    · rw [show updA (hd :: tl) k f = (hd.1, f hd.2) :: tl by
        simp [updA, hk]] at hp
      rcases List.mem_cons.mp hp with rfl | h
      · right
        exact ⟨hd.2, by simp [hk], by rw [hk]⟩
      · left
        exact List.mem_cons_of_mem hd h
    · rw [show updA (hd :: tl) k f = hd :: updA tl k f by
        rcases hd with ⟨k', v⟩
        simp [updA, hk]] at hp
      rcases List.mem_cons.mp hp with rfl | h
      · left
        exact List.mem_cons_self _ _
      · rcases ih p h with h' | ⟨v, hv, hp'⟩
        · left
          exact List.mem_cons_of_mem hd h'
        · right
          exact ⟨v, List.mem_cons_of_mem hd hv, hp'⟩

/-- One `GroupPermissions` loop step preserves the sum invariant. -/
theorem groupStep_inv (m : List (String × PermissionGroup)) (stat : PermissionStats)
    (hm : ∀ kg ∈ m, groupInv kg.2) : ∀ kg ∈ groupStep m stat, groupInv kg.2 := by
  intro kg hkg
  simp only [groupStep] at hkg
  cases hlook : lookupA m stat.Permission.typ with
  | some g0 =>
    rw [hlook] at hkg
    rcases mem_updA _ _ _ kg hkg with h | ⟨v, hv, rfl⟩
    · exact hm kg h
    · rcases hm _ hv with ⟨h1, h2, h3⟩
      simp only [sumBy] at h1 h2 h3
      refine ⟨?_, ?_, ?_⟩ <;> simp [sumBy, h1, h2, h3]
  | none =>
    rw [hlook] at hkg
    rcases List.mem_append.mp hkg with h | h
    · exact hm kg h
    · rcases List.mem_singleton.mp h with rfl
      refine ⟨?_, ?_, ?_⟩ <;> simp [sumBy]

/-- The whole `GroupPermissions` fold preserves the sum invariant. -/
theorem groupFold_inv (stats : List PermissionStats) :
    ∀ m, (∀ kg ∈ m, groupInv kg.2) → ∀ kg ∈ stats.foldl groupStep m, groupInv kg.2 := by
  induction stats with
  | nil => intro m hm kg hkg; exact hm kg hkg
  | cons stat stats ih =>
    intro m hm kg hkg
    exact ih (groupStep m stat) (groupStep_inv m stat hm) kg hkg

/-- C3: every group returned by `GroupPermissions` has `TotalCount`,
`TotalApproved` and `TotalDenied` equal to the sums of its children's
`Count`, `Approved` and `Denied` fields. -/
theorem C3_group_totals (stats : List PermissionStats) (g : PermissionGroup)
    (hg : g ∈ GroupPermissions stats) :
    g.TotalCount = sumBy (fun c => c.Count) g.Children ∧
    g.TotalApproved = sumBy (fun c => c.Approved) g.Children ∧
    g.TotalDenied = sumBy (fun c => c.Denied) g.Children := by
  unfold GroupPermissions at hg
  rw [mem_sortByDesc] at hg
  rcases List.mem_map.mp hg with ⟨kg, hkg, rfl⟩
  rcases groupFold_inv stats [] (by simp) kg hkg with ⟨h1, h2, h3⟩
  refine ⟨?_, ?_, ?_⟩ <;>
    simp [h1, h2, h3, sumBy_sortByDesc]

/-- A flat stats entry for the grouping witness. -/
def demoStat : PermissionStats :=
  { Permission := ParsePermission "Read", Count := 1, Approved := 1, Denied := 0,
    LastSeen := 3, Projects := [], ApprovedAt := 0 }

/-- The single group produced from `demoStat`. -/
def demoGroup : PermissionGroup :=
  { typ := "Read", TotalCount := 1, TotalApproved := 1, TotalDenied := 0,
    LastSeen := 3, Children := [demoStat], Expanded := false, ApprovedAt := 0 }

/-- C3 witness: the invariant evaluated on a concrete grouping. -/
theorem C3_witness :
    demoGroup.TotalCount = sumBy (fun c => c.Count) demoGroup.Children ∧
    demoGroup.TotalApproved = sumBy (fun c => c.Approved) demoGroup.Children ∧
    demoGroup.TotalDenied = sumBy (fun c => c.Denied) demoGroup.Children :=
  C3_group_totals [demoStat] demoGroup (by decide)

/-! ### C2 infrastructure: the correlation invariant of the scanner -/

/-- The referenced invocation ids of the result items of an item list (in
order): exactly the ids the scanner will try to correlate. -/
def resultIdsItems (items : List ContentItem) : List String :=
  items.filterMap fun it =>
    if it.type = "tool_result" ∧ it.toolUseID ≠ "" then some it.toolUseID else none

/-- The referenced invocation ids of all result items of a session log. -/
def resultIds (entries : List JSONLEntry) : List String :=
  resultIdsItems (entries.flatMap fun e => e.content)

/-- One scanner step on a timestamped item. -/
def processPair (st : ScanState) (p : Nat × ContentItem) : ScanState :=
  processItem p.1 st p.2

/-- The timestamped item stream of a session log. -/
def flattenLog (sessionTime : Nat) (entries : List JSONLEntry) : List (Nat × ContentItem) :=
  entries.flatMap fun e => e.content.map fun item => (e.timestamp.getD sessionTime, item)

/-- The number of recorded invocation-id mappings pointing at `k` whose
id still occurs in the future result-id list `future`. -/
def pend (m : List (String × String)) (future : List String) (k : String) : Nat :=
  match m with
  | [] => 0
  | (i, v) :: rest => (if v = k ∧ i ∈ future then 1 else 0) + pend rest future k

/-- The correlation invariant: classified results plus still-pending
mappings never exceed the invocation count of any key. -/
def scanInv (st : ScanState) (future : List String) : Prop :=
  ∀ k, lookupD st.approved k + lookupD st.denied k +
    (pend st.toolUseIDToKey future k : Int) ≤ lookupD st.counts k

/-- With no future results there are no pending mappings. -/
theorem pend_nil (m : List (String × String)) (k : String) : pend m [] k = 0 := by
  induction m with
  | nil => rfl
  | cons hd tl ih =>
    rcases hd with ⟨i, v⟩
    simp [pend, ih]

/-- `bump` increments exactly the bumped key. -/
theorem lookupD_bump (m : List (String × Int)) (k k' : String) :
    lookupD (bump m k) k' = lookupD m k' + (if k' = k then 1 else 0) := by
  induction m with
  | nil =>
    by_cases h : k' = k
    · simp [bump, lookupD, lookupA, h]
    · simp [bump, lookupD, lookupA, h]
  | cons hd tl ih =>
    rcases hd with ⟨a, v⟩
    by_cases hka : k = a
    · subst hka
      by_cases h : k' = k
      · subst h
        simp [bump, lookupD, lookupA]
      · simp [bump, lookupD, lookupA, h]
    · simp only [bump, if_neg hka]
      by_cases h : k' = a
      · subst h
        have hkk : ¬ (k' = k) := fun hc => hka hc.symm
        simp [lookupD, lookupA, hkk]
      · simp only [lookupD, lookupA, if_neg h]
        exact ih

/-- `setA` stores at its key and leaves other keys unchanged. -/
theorem lookupA_setA {α : Type} (m : List (String × α)) (i : String) (v : α) (j : String) :
    lookupA (setA m i v) j = if j = i then some v else lookupA m j := by
  induction m with
  | nil =>
    by_cases h : j = i
    · simp [setA, lookupA, h]
    · simp [setA, lookupA, h]
  | cons hd tl ih =>
    rcases hd with ⟨a, w⟩
    by_cases hia : i = a
    · subst hia
      by_cases h : j = i
      · simp [setA, lookupA, h]
      · simp [setA, lookupA, h]
    · simp only [setA, if_neg hia]
      by_cases h : j = a
      · subst h
        have hji : ¬ (j = i) := fun hc => hia hc.symm
        simp [lookupA, hji]
      · simp only [lookupA, if_neg h]
        exact ih

/-- Overwriting one mapping adds at most one pending entry, and only at
the written key. -/
theorem pend_setA_le (m : List (String × String)) (i key : String) (F : List String)
    (k : String) :
    pend (setA m i key) F k ≤ pend m F k + (if key = k then 1 else 0) := by
  induction m with
  | nil =>
    simp only [setA, pend]
    by_cases h1 : key = k ∧ i ∈ F
    · rw [if_pos h1, if_pos h1.1]
    · rw [if_neg h1]
      omega
  | cons hd tl ih =>
    rcases hd with ⟨a, w⟩
    by_cases hia : i = a
    · simp only [setA, if_pos hia, pend]
      by_cases h1 : key = k ∧ i ∈ F
      · rw [if_pos h1, if_pos h1.1]
        have hc : (if w = k ∧ a ∈ F then 1 else 0) + pend tl F k + 1 ≥ 1 + pend tl F k := by
          omega
        omega
      · rw [if_neg h1]
        omega
    · simp only [setA, if_neg hia, pend]
      have := ih
      omega

/-- Shrinking the future list cannot increase the pending count. -/
theorem pend_mono (m : List (String × String)) (F F' : List String)
    (hsub : ∀ x, x ∈ F' → x ∈ F) (k : String) :
    pend m F' k ≤ pend m F k := by
  induction m with
  | nil => simp [pend]
  | cons hd tl ih =>
    rcases hd with ⟨a, w⟩
    simp only [pend]
    by_cases h1 : w = k ∧ a ∈ F'
    · rw [if_pos h1, if_pos ⟨h1.1, hsub _ h1.2⟩]
      omega
    · rw [if_neg h1]
      omega

/-- The keys of an int-valued map. -/
def keysOf (m : List (String × Int)) : List String := m.map Prod.fst

/-- `bump` introduces at most the bumped key. -/
theorem mem_keysOf_bump (m : List (String × Int)) (k x : String)
    (h : x ∈ keysOf (bump m k)) : x ∈ keysOf m ∨ x = k := by
  induction m with
  | nil =>
    right
    simpa [bump, keysOf] using h
  | cons hd tl ih =>
    rcases hd with ⟨a, v⟩
    by_cases hka : k = a
    · subst hka
      simp only [bump, eq_self_iff_true, if_true, keysOf, List.map_cons,
        List.mem_cons] at h ⊢
      tauto
    · simp only [bump, if_neg hka, keysOf, List.map_cons, List.mem_cons] at h ⊢
      rcases h with h | h
      · exact Or.inl (Or.inl h)
      · rcases ih h with h' | h'
        · exact Or.inl (Or.inr h')
        · exact Or.inr h'

/-- `bump` preserves distinctness of the keys. -/
theorem keysOf_bump_nodup (m : List (String × Int)) (k : String)
    (h : (keysOf m).Nodup) : (keysOf (bump m k)).Nodup := by
  induction m with
  | nil => simp [bump, keysOf]
  | cons hd tl ih =>
    rcases hd with ⟨a, v⟩
    by_cases hka : k = a
    · subst hka
      simpa [bump, keysOf] using h
    · simp only [keysOf, List.map_cons, List.nodup_cons] at h
      simp only [bump, if_neg hka, keysOf, List.map_cons, List.nodup_cons]
      refine ⟨?_, ih h.2⟩
      intro hc
      rcases mem_keysOf_bump tl k a hc with h' | h'
      · exact h.1 h'
      · exact hka h'.symm

/-- On a map with distinct keys, a stored entry is what `lookupD` reads. -/
theorem lookupD_of_mem_nodup (m : List (String × Int)) (k : String) (v : Int)
    (hm : (k, v) ∈ m) (h : (keysOf m).Nodup) : lookupD m k = v := by
  induction m with
  | nil => cases hm
  | cons hd tl ih =>
    rcases hd with ⟨a, w⟩
    simp only [keysOf, List.map_cons, List.nodup_cons] at h
    rcases List.mem_cons.mp hm with heq | hmem
    · rcases Prod.mk.injEq .. ▸ heq with ⟨rfl, rfl⟩
      simp [lookupD, lookupA]
    · have hka : ¬ (k = a) := by
        intro hc
        subst hc
        exact h.1 (List.mem_map_of_mem Prod.fst hmem)
      simp only [lookupD, lookupA, if_neg hka]
      exact ih hmem h.2

/-- Processing one future result id whose mapping points at `k` strictly
decreases the pending count at `k`. -/
theorem pend_cons_ge (m : List (String × String)) (j : String) (F : List String)
    (k : String) (hlook : lookupA m j = some k) (hj : j ∉ F) :
    pend m F k + 1 ≤ pend m (j :: F) k := by
  induction m with
  | nil => exact absurd hlook (by simp [lookupA])
  | cons hd tl ih =>
    rcases hd with ⟨a, w⟩
    by_cases haj : j = a
    · subst haj
      have hw : w = k := by
        simpa [lookupA] using hlook
      subst hw
      have htail : pend tl F w ≤ pend tl (j :: F) w :=
        pend_mono tl (j :: F) F (fun x hx => List.mem_cons_of_mem j hx) w
      simp only [pend]
      simp [hj]
      omega
    · have htl : lookupA tl j = some k := by
        have hja : ¬ (j = a) := haj
        simpa [lookupA, hja] using hlook
      have hrec := ih htl
      simp only [pend]
      by_cases h1 : w = k ∧ a ∈ F
      · rw [if_pos h1, if_pos ⟨h1.1, List.mem_cons_of_mem j h1.2⟩]
        omega
      · have h1' : ¬ (w = k ∧ a ∈ j :: F) := by
          intro hc
          apply h1
          refine ⟨hc.1, ?_⟩
          rcases List.mem_cons.mp hc.2 with h' | h'
          · exact absurd h'.symm haj
          · exact h'
        rw [if_neg h1, if_neg h1']
        omega

/-- The empty scanner state satisfies the invariant for any future. -/
theorem scanInv_init (F : List String) : scanInv ⟨[], [], [], [], []⟩ F := by
  intro k
  simp [lookupD, lookupA, pend]

/-- The nested scanning loop equals a fold over the timestamped stream. -/
theorem scanLog_eq_flatten (sessionTime : Nat) (entries : List JSONLEntry) :
    scanLog sessionTime entries =
      (flattenLog sessionTime entries).foldl processPair ⟨[], [], [], [], []⟩ := by
  have hinner : ∀ (items : List ContentItem) (st : ScanState) (tm : Nat),
      items.foldl (processItem tm) st =
        (items.map fun item => (tm, item)).foldl processPair st := by
    intro items
    induction items with
    | nil => intro st tm; rfl
    | cons it its ih2 => intro st tm; exact ih2 (processItem tm st it) tm
  suffices h : ∀ (es : List JSONLEntry) (st : ScanState),
      es.foldl (fun st e => e.content.foldl (processItem (e.timestamp.getD sessionTime)) st) st =
        (flattenLog sessionTime es).foldl processPair st by
    exact h entries _
  intro es
  induction es with
  | nil => intro st; rfl
  | cons e es ih =>
    intro st
    simp only [List.foldl_cons, flattenLog, List.flatMap_cons, List.foldl_append]
    rw [← hinner e.content st (e.timestamp.getD sessionTime)]
    exact ih _

/-- Unfolding equation for the result-id stream. -/
theorem resultIdsItems_cons (item : ContentItem) (items : List ContentItem) :
    resultIdsItems (item :: items) =
      (if item.type = "tool_result" ∧ item.toolUseID ≠ "" then [item.toolUseID] else []) ++
        resultIdsItems items := by
  simp only [resultIdsItems, List.filterMap_cons]
  by_cases h : item.type = "tool_result" ∧ item.toolUseID ≠ ""
  · rw [if_pos h, if_pos h]
    rfl
  · rw [if_neg h, if_neg h]
    rfl

/-- The correlation invariant is maintained by the whole scan, provided
every future result id is answered at most once; at the end nothing is
pending, so classified results are bounded by the counts. -/
theorem scanInv_fold (pairs : List (Nat × ContentItem)) :
    ∀ st : ScanState, (resultIdsItems (pairs.map Prod.snd)).Nodup →
      scanInv st (resultIdsItems (pairs.map Prod.snd)) →
      scanInv (pairs.foldl processPair st) [] := by
  induction pairs with
  | nil => intro st _ hinv; exact hinv
  | cons p ps ih =>
    rcases p with ⟨t, item⟩
    intro st hnd hinv
    rw [show ((t, item) :: ps).map Prod.snd = item :: ps.map Prod.snd from rfl,
      resultIdsItems_cons] at hnd hinv
    by_cases h2 : item.type = "tool_result" ∧ item.toolUseID ≠ ""
    · rw [if_pos h2, List.singleton_append] at hnd hinv
      have hj : item.toolUseID ∉ resultIdsItems (ps.map Prod.snd) :=
        (List.nodup_cons.mp hnd).1
      have hF : (resultIdsItems (ps.map Prod.snd)).Nodup := (List.nodup_cons.mp hnd).2
      refine ih (processPair st (t, item)) hF ?_
      have hnotuse : ¬ (item.type = "tool_use" ∧ item.name ≠ "") := by
        intro hc
        rw [h2.1] at hc
        exact absurd hc.1 (by decide)
      cases hl : lookupA st.toolUseIDToKey item.toolUseID with
      | none =>
        simp only [processPair, processItem, if_neg hnotuse, if_pos h2, hl]
        intro k
        have hinvk := hinv k
        have hmono := pend_mono st.toolUseIDToKey
          (item.toolUseID :: resultIdsItems (ps.map Prod.snd))
          (resultIdsItems (ps.map Prod.snd))
          (fun x hx => List.mem_cons_of_mem _ hx) k
        omega
      | some key =>
        simp only [processPair, processItem, if_neg hnotuse, if_pos h2, hl]
        by_cases he : (item.isError && toolResultContainsRejection item.content) = true
        · rw [if_pos he]
          intro k
          show lookupD st.approved k + lookupD (bump st.denied key) k +
            (pend st.toolUseIDToKey (resultIdsItems (ps.map Prod.snd)) k : Int) ≤
              lookupD st.counts k
          have hinvk := hinv k
          have hb := lookupD_bump st.denied key k
          by_cases hk : k = key
          · subst hk
            rw [if_pos rfl] at hb
            have hp := pend_cons_ge st.toolUseIDToKey item.toolUseID
              (resultIdsItems (ps.map Prod.snd)) k hl hj
            omega
          · rw [if_neg hk] at hb
            have hmono := pend_mono st.toolUseIDToKey
              (item.toolUseID :: resultIdsItems (ps.map Prod.snd))
              (resultIdsItems (ps.map Prod.snd))
              (fun x hx => List.mem_cons_of_mem _ hx) k
            omega
        · rw [if_neg he]
          by_cases hne : (!item.isError) = true
          · rw [if_pos hne]
            intro k
            show lookupD (bump st.approved key) k + lookupD st.denied k +
              (pend st.toolUseIDToKey (resultIdsItems (ps.map Prod.snd)) k : Int) ≤
                lookupD st.counts k
            have hinvk := hinv k
            have hb := lookupD_bump st.approved key k
            by_cases hk : k = key
            · subst hk
              rw [if_pos rfl] at hb
              have hp := pend_cons_ge st.toolUseIDToKey item.toolUseID
                (resultIdsItems (ps.map Prod.snd)) k hl hj
              omega
            · rw [if_neg hk] at hb
              have hmono := pend_mono st.toolUseIDToKey
                (item.toolUseID :: resultIdsItems (ps.map Prod.snd))
                (resultIdsItems (ps.map Prod.snd))
                (fun x hx => List.mem_cons_of_mem _ hx) k
              omega
          · rw [if_neg hne]
            intro k
            have hinvk := hinv k
            have hmono := pend_mono st.toolUseIDToKey
              (item.toolUseID :: resultIdsItems (ps.map Prod.snd))
              (resultIdsItems (ps.map Prod.snd))
              (fun x hx => List.mem_cons_of_mem _ hx) k
            omega
    · rw [if_neg h2, List.nil_append] at hnd hinv
      refine ih (processPair st (t, item)) hnd ?_
      by_cases h1 : item.type = "tool_use" ∧ item.name ≠ ""
      · simp only [processPair, processItem, if_pos h1]
        by_cases hid : item.id ≠ ""
        · rw [if_pos hid]
          intro k
          show lookupD st.approved k + lookupD st.denied k +
            (pend (setA st.toolUseIDToKey item.id
              (PermissionKey (ParsePermission (ExtractPermissionScope item.name item.input))))
              (resultIdsItems (ps.map Prod.snd)) k : Int) ≤
            lookupD (bump st.counts
              (PermissionKey (ParsePermission (ExtractPermissionScope item.name item.input)))) k
          have hinvk := hinv k
          have hbc := lookupD_bump st.counts
            (PermissionKey (ParsePermission (ExtractPermissionScope item.name item.input))) k
          have hsetle := pend_setA_le st.toolUseIDToKey item.id
            (PermissionKey (ParsePermission (ExtractPermissionScope item.name item.input)))
            (resultIdsItems (ps.map Prod.snd)) k
          by_cases hk :
              k = PermissionKey (ParsePermission (ExtractPermissionScope item.name item.input))
          · rw [if_pos hk] at hbc
            rw [if_pos hk.symm] at hsetle
            omega
          · rw [if_neg hk] at hbc
            rw [if_neg (fun hc => hk hc.symm)] at hsetle
            omega
        · rw [if_neg hid]
          intro k
          show lookupD st.approved k + lookupD st.denied k +
            (pend st.toolUseIDToKey (resultIdsItems (ps.map Prod.snd)) k : Int) ≤
            lookupD (bump st.counts
              (PermissionKey (ParsePermission (ExtractPermissionScope item.name item.input)))) k
          have hinvk := hinv k
          have hbc := lookupD_bump st.counts
            (PermissionKey (ParsePermission (ExtractPermissionScope item.name item.input))) k
          by_cases hk :
              k = PermissionKey (ParsePermission (ExtractPermissionScope item.name item.input))
          · rw [if_pos hk] at hbc
            omega
          · rw [if_neg hk] at hbc
            omega
      · simp only [processPair, processItem, if_neg h1, if_neg h2]
        exact hinv

/-- One scanner step preserves distinctness of the counted keys. -/
theorem processPair_keys_nodup (st : ScanState) (p : Nat × ContentItem)
    (h : (keysOf st.counts).Nodup) : (keysOf (processPair st p).counts).Nodup := by
  rcases p with ⟨t, item⟩
  by_cases h1 : item.type = "tool_use" ∧ item.name ≠ ""
  · simp only [processPair, processItem, if_pos h1]
    exact keysOf_bump_nodup _ _ h
  · by_cases h2 : item.type = "tool_result" ∧ item.toolUseID ≠ ""
    · simp only [processPair, processItem, if_neg h1, if_pos h2]
      cases hl : lookupA st.toolUseIDToKey item.toolUseID with
      | none => exact h
      | some key =>
        split_ifs <;> exact h
    · simp only [processPair, processItem, if_neg h1, if_neg h2]
      exact h

/-- The whole scan preserves distinctness of the counted keys. -/
theorem foldl_processPair_keys_nodup (pairs : List (Nat × ContentItem)) :
    ∀ st : ScanState, (keysOf st.counts).Nodup →
      (keysOf ((pairs.foldl processPair st)).counts).Nodup := by
  induction pairs with
  | nil => intro st h; exact h
  | cons p ps ih => intro st h; exact ih _ (processPair_keys_nodup st p h)

/-- The timestamped stream projects back onto the raw item stream. -/
theorem flattenLog_snd (sessionTime : Nat) (entries : List JSONLEntry) :
    (flattenLog sessionTime entries).map Prod.snd = entries.flatMap fun e => e.content := by
  unfold flattenLog
  rw [List.map_flatMap]
  simp

/-- Scanner half of C2: when every result id in the file is answered at
most once, every stat the scanner emits satisfies the bound. -/
theorem parseSessionLog_bounds (sessionTime : Nat) (entries : List JSONLEntry)
    (hnd : (resultIds entries).Nodup) :
    ∀ s ∈ parseSessionLog sessionTime entries, s.Approved + s.Denied ≤ s.Count := by
  intro s hs
  have hids : resultIdsItems ((flattenLog sessionTime entries).map Prod.snd) =
      resultIds entries := by
    rw [flattenLog_snd]
    rfl
  have hfin : scanInv (scanLog sessionTime entries) [] := by
    rw [scanLog_eq_flatten]
    exact scanInv_fold (flattenLog sessionTime entries) ⟨[], [], [], [], []⟩
      (by rw [hids]; exact hnd) (scanInv_init _)
  have hkeys : (keysOf (scanLog sessionTime entries).counts).Nodup := by
    rw [scanLog_eq_flatten]
    exact foldl_processPair_keys_nodup _ _ (by simp [keysOf])
  simp only [parseSessionLog] at hs
  rcases List.mem_map.mp hs with ⟨kc, hkc, rfl⟩
  show lookupD (scanLog sessionTime entries).approved kc.1 +
      lookupD (scanLog sessionTime entries).denied kc.1 ≤ kc.2
  have hcount : lookupD (scanLog sessionTime entries).counts kc.1 = kc.2 := by
    rcases kc with ⟨key, c⟩
    exact lookupD_of_mem_nodup _ key c hkc hkeys
  have hfin' := hfin kc.1
  rw [pend_nil] at hfin'
  omega

/-! ### C2: aggregation preserves the bound -/

/-- The aggregation-state invariant for C2. -/
def aggInv (st : AggState) : Prop :=
  ∀ ks ∈ st.statsMap, ks.2.Approved + ks.2.Denied ≤ ks.2.Count

/-- One merge step preserves the bound when the merged stat satisfies it. -/
theorem aggStep_inv (projectName : String) (st : AggState) (p : PermissionStats)
    (hp : p.Approved + p.Denied ≤ p.Count) (h : aggInv st) :
    aggInv (aggStep projectName st p) := by
  intro ks hks
  simp only [aggStep] at hks
  by_cases hc : (lookupA st.statsMap (PermissionKey p.Permission)).isSome = true
  · rw [if_pos hc] at hks
    rcases mem_updA _ _ _ ks hks with hmem | ⟨v, hv, rfl⟩
    · exact h ks hmem
    · have hvb := h _ hv
      simp only at hvb ⊢
      omega
  · rw [if_neg hc] at hks
    rcases mem_updA _ _ _ ks hks with hmem | ⟨v, hv, rfl⟩
    · rcases List.mem_append.mp hmem with hm | hm
      · exact h ks hm
      · rcases List.mem_singleton.mp hm with rfl
        simp
    · rcases List.mem_append.mp hv with hm | hm
      · have hvb := h _ hm
        simp only at hvb ⊢
        omega
      · have hveq := List.mem_singleton.mp hm
        injection hveq with h1 h2
        subst h2
        simp only
        omega

/-- Folding the merge over stats satisfying the bound preserves it. -/
theorem aggFold_inv (projectName : String) (perms : List PermissionStats)
    (hps : ∀ p ∈ perms, p.Approved + p.Denied ≤ p.Count) :
    ∀ st, aggInv st → aggInv (perms.foldl (aggStep projectName) st) := by
  induction perms with
  | nil => intro st h; exact h
  | cons p ps ih =>
    intro st h
    exact ih (fun q hq => hps q (List.mem_cons_of_mem p hq)) _
      (aggStep_inv projectName st p (hps p (List.mem_cons_self p ps)) h)

/-- A session step preserves the bound under the duplicate-free-results
assumption on the file system. -/
theorem sessionStep_inv (fs : FS) (projectPath projectName : String)
    (session : SessionEntry)
    (hfs : ∀ path log, fs.log path = some log → (resultIds log).Nodup) :
    ∀ st, aggInv st → aggInv (sessionStep fs projectPath projectName st session) := by
  intro st h
  simp only [sessionStep]
  cases hl : fs.log (joinPath projectPath (session.sessionID ++ ".jsonl")) with
  | none => exact h
  | some entries =>
    exact aggFold_inv projectName _
      (parseSessionLog_bounds _ entries (hfs _ _ hl)) st h

/-- A whole session list preserves the bound. -/
theorem sessionsFold_inv (fs : FS) (projectPath projectName : String)
    (hfs : ∀ path log, fs.log path = some log → (resultIds log).Nodup)
    (sessions : List SessionEntry) :
    ∀ st, aggInv st →
      aggInv (sessions.foldl (sessionStep fs projectPath projectName) st) := by
  induction sessions with
  | nil => intro st h; exact h
  | cons session rest ih =>
    intro st h
    exact ih _ (sessionStep_inv fs _ _ session hfs st h)

/-- A project step preserves the bound likewise. -/
theorem projectStep_inv (fs : FS) (projectsDir : String) (entry : DirEntry)
    (hfs : ∀ path log, fs.log path = some log → (resultIds log).Nodup) :
    ∀ st, aggInv st → aggInv (projectStep fs projectsDir st entry) := by
  intro st h
  simp only [projectStep]
  by_cases hd : entry.isDir = true
  · rw [if_pos hd]
    cases hi : fs.index (joinPath (joinPath projectsDir entry.name) "sessions-index.json") with
    | none => exact h
    | some sessions => exact sessionsFold_inv fs _ _ hfs sessions st h
  · rw [if_neg hd]
    exact h

/-- Finalization only sorts and fills in project lists, so the bound
survives it. -/
theorem finalizeAgg_bounds (st : AggState) (h : aggInv st) :
    ∀ s ∈ finalizeAgg st, s.Approved + s.Denied ≤ s.Count := by
  intro s hs
  simp only [finalizeAgg] at hs
  rw [mem_sortByDesc] at hs
  rcases List.mem_map.mp hs with ⟨ks, hks, rfl⟩
  have := h ks hks
  simpa using this

/-- A session log whose single invocation is answered by two results. -/
def demoDupEntries : List JSONLEntry :=
  [{ timestamp := none,
     content :=
       [{ type := "tool_use", id := "A", name := "Read", input := .empty,
          toolUseID := "", isError := false, content := .empty },
        { type := "tool_result", id := "", name := "", input := .empty,
          toolUseID := "A", isError := false, content := .empty },
        { type := "tool_result", id := "", name := "", input := .empty,
          toolUseID := "A", isError := false, content := .empty }] }]

/-- C2 counterexample: a log in which two results reference the same
invocation id makes the scanner emit a stat with
`Approved + Denied > Count`, so the claim fails as stated for arbitrary
input files. -/
theorem C2_counterexample :
    ¬ (∀ s ∈ parseSessionLog 0 demoDupEntries, s.Approved + s.Denied ≤ s.Count) := by
  decide

/-- C2 (amended): provided each result content item of a file references
a distinct invocation id (no invocation is answered twice), every
`PermissionStats` emitted by the scanner satisfies
`Approved + Denied ≤ Count`; and the directory-walker aggregation
preserves the bound: on a file system all of whose session logs satisfy
that distinctness, every aggregated stat satisfies the bound. -/
theorem C2_counts_bound :
    (∀ sessionTime entries, (resultIds entries).Nodup →
      ∀ s ∈ parseSessionLog sessionTime entries, s.Approved + s.Denied ≤ s.Count) ∧
    (∀ (fs : FS) (projectsDir : String) (out : List PermissionStats),
      (∀ path log, fs.log path = some log → (resultIds log).Nodup) →
      LoadAllPermissionStatsFrom fs projectsDir = .ok out →
      ∀ s ∈ out, s.Approved + s.Denied ≤ s.Count) := by
  constructor
  · exact fun sessionTime entries h => parseSessionLog_bounds sessionTime entries h
  · intro fs projectsDir out hfs hok
    unfold LoadAllPermissionStatsFrom at hok
    cases hr : fs.readDir projectsDir with
    | notExist =>
      rw [hr] at hok
      injection hok with h'
      subst h'
      intro s hs
      exact absurd hs (List.not_mem_nil s)
    | otherError e =>
      rw [hr] at hok
      exact Except.noConfusion hok
    | ok entries =>
      rw [hr] at hok
      injection hok with h'
      subst h'
      refine finalizeAgg_bounds _ ?_
      have hfold : ∀ (es : List DirEntry) (st : AggState), aggInv st →
          aggInv (es.foldl (projectStep fs projectsDir) st) := by
        intro es
        induction es with
        | nil => intro st h; exact h
        | cons e es ih =>
          intro st h
          exact ih _ (projectStep_inv fs projectsDir e hfs st h)
      exact hfold entries ⟨[], []⟩ (fun ks hks => absurd hks (List.not_mem_nil ks))

/-- The session log of the spec's concrete approved scenario. -/
def demoOkEntries : List JSONLEntry :=
  [{ timestamp := some 9,
     content :=
       [{ type := "tool_use", id := "toolu_01", name := "Bash",
          input := .payload (some "curl -s https://example.com") none,
          toolUseID := "", isError := false, content := .empty },
        { type := "tool_result", id := "", name := "", input := .empty,
          toolUseID := "toolu_01", isError := false, content := .str "ok" "ok" }] }]

/-- The single stat the scanner emits for `demoOkEntries`. -/
def demoOkStat : PermissionStats :=
  { Permission := { typ := "Bash", Scope := "curl:*", Raw := "Bash(curl:*)" },
    Count := 1, Approved := 1, Denied := 0, LastSeen := 9,
    Projects := [], ApprovedAt := 0 }

/-- C2 witness: the amended bound evaluated on a concrete scan. -/
theorem C2_witness : demoOkStat.Approved + demoOkStat.Denied ≤ demoOkStat.Count :=
  C2_counts_bound.1 7 demoOkEntries (by decide) demoOkStat (by decide)
